import Mathlib

/-!
Verification of the n-gram language model core of the cobe repository.

The repository ships the test suite (`src/tests/test_model.py`) but not
`cobe/model.py` itself, so the Model and TokenRegistry components are
modelled here from the specification, with every behaviour the tests pin
down reproduced faithfully (padding, key layout, count merging, sampling
and search semantics).
-/

/-- A token is a string produced by the external analyzer. -/
abbrev Token := String

/-- Modelled from the spec: n-gram count records carry a direction, one of
forward or reverse (§4.2 of the spec; `cobe/model.py` is not shipped). -/
inductive Direction where
  | fwd
  | rev
deriving DecidableEq, Repr

/-- Modelled from the spec: the N-gram Key Codec (§4.2) is abstracted to the
pair (direction, token sequence); the spec grants byte-layout freedom as long
as keys are grouped by order and direction and ordered by token sequence, and
the order of an n-gram key is recoverable as the length of its sequence. -/
abbrev Key := Direction × List Token

/-- Modelled from the spec: the ordered key-value store contract (§6),
reduced to the association list of (key, count) entries the Model writes.
Entries are kept in first-insertion order; each key occurs at most once. -/
abbrev Store := List (Key × Nat)

/-- Look a key up in the store; absent keys count as zero (§3 of the spec:
"Counts for unseen n-grams are implicitly zero"). -/
def storeGet : Store → Key → Nat
  | [], _ => 0
  | (k2, c) :: rest, k => if k2 = k then c else storeGet rest k

/-- Merge a count increment into the store (read-modify-write, §4.3 step 4). -/
def incKey : Store → Key → Nat → Store
  | [], k, n => [(k, n)]
  | (k2, c) :: rest, k, n =>
      if k2 = k then (k2, c + n) :: rest else (k2, c) :: incKey rest k n

/-- Modelled from the spec: `Model._ngrams` (missing `cobe/model.py`),
windowing per §4.3 step 3: slide a width-`n` window across the sequence,
producing every contiguous sub-sequence of exactly `n` items. The Python
loop is `for i in xrange(0, len(grams) - n + 1): yield grams[i:i + n]`;
the truncated subtraction `length + 1 - n` matches the empty range the
Python integer arithmetic produces when `n` exceeds the sequence length. -/
def _ngrams (tokens : List α) (n : Nat) : List (List α) :=
  (List.range (tokens.length + 1 - n)).map fun i => (tokens.drop i).take n

/-- Modelled from the spec: the whitespace analyzer contract (§6), as used by
every test: split text on spaces, discarding empty fragments (Python's
`str.split()`). -/
def whitespaceTokenize (text : String) : List Token :=
  ((text.toList.splitOnP fun c => c = ' ').filter fun cs => cs ≠ []).map
    fun cs => String.mk cs

/-- Modelled from the spec: sentence-boundary padding applied by
`Model.train` (missing `cobe/model.py`): `n - 1` empty-string tokens on each
side, as pinned by `TestModel.test_train` (the trigram ("", "", "<S>") has
count 1 and ("", "", "") has count 0 after one training). -/
def pad (n : Nat) (tokens : List Token) : List Token :=
  List.replicate (n - 1) "" ++ tokens ++ List.replicate (n - 1) ""

/-- Modelled from the spec: the configured order sequence (§3), descending
from the maximum order: `tuple(range(n, 0, -1))`. -/
def ordersOf (n : Nat) : List Nat :=
  (List.range n).map fun i => n - i

/-- Modelled from the spec: the key increments one order contributes for one
padded token sequence (§4.3 step 4). Forward keys are written for every
order; a reverse key (the window reversed) is written only at the top order,
as pinned by `TestModel.test_train`, which requires the reverse index to hold
exactly as many entries as the top-order forward index. -/
def orderIncs (n k : Nat) (padded : List Token) : List Key :=
  (_ngrams padded k).map (fun w => (Direction.fwd, w))
    ++ if k = n then (_ngrams padded k).map (fun w => (Direction.rev, w.reverse)) else []

/-- Modelled from the spec: all key increments of one `train` call
(§4.3 steps 3-4), looping over the configured orders. -/
def trainIncs (n : Nat) (padded : List Token) : List Key :=
  (ordersOf n).flatMap fun k => orderIncs n k padded

/-- Modelled from the spec: the Model (§2, §4.3), holding the maximum n-gram
order and the backing store of count records. -/
structure Model where
  n : Nat
  store : Store

/-- A fresh model over an empty store (top order `n`, default 3). -/
def Model.empty (n : Nat) : Model := ⟨n, []⟩

/-- Modelled from the spec: `Model.train` (§4.3): tokenize, pad, window into
n-grams of every configured order, and merge each window's count increment
into the store. -/
def Model.train (M : Model) (text : String) : Model :=
  ⟨M.n, (trainIncs M.n (pad M.n (whitespaceTokenize text))).foldl
      (fun s k => incKey s k 1) M.store⟩

/-- Train a fresh model of top order `n` on a list of texts in turn
(`Model.train_many` over a fresh model). -/
def trainAll (n : Nat) (texts : List String) : Model :=
  texts.foldl Model.train (Model.empty n)

/-- Modelled from the spec: `Model.ngram_count` (§4.4): the stored forward
count of the token sequence, 0 if absent. -/
def ngram_count (M : Model) (ngram : List Token) : Nat :=
  storeGet M.store (Direction.fwd, ngram)

/-- Modelled from the spec: `Model.prob` (§4.4): the maximum-likelihood
estimate count(context + [token]) / count(context); the zero-denominator
convention is the documented "return zero probability" outcome (§7). -/
def prob (M : Model) (token : Token) (context : List Token) : ℚ :=
  let num := ngram_count M (context ++ [token])
  let den := ngram_count M context
  if den = 0 then 0 else (num : ℚ) / (den : ℚ)

/-- Modelled from the spec: `Model.logprob` (§4.4), a log transform of the
same ratio. The spec text says natural logarithm, but
`TestModel.test_logprob_with_counts` (the shipped test suite) asserts
`logprob("three", ["one", "two"]) = 1.0` where the ratio is 0.5, which pins
the transform as the negative base-2 logarithm. -/
noncomputable def logprob (M : Model) (token : Token) (context : List Token) : ℝ :=
  -(Real.log ((prob M token context : ℚ) : ℝ) / Real.log 2)

/-! ### Basic store lemmas -/

theorem storeGet_incKey (s : Store) (k k2 : Key) (m : Nat) :
    storeGet (incKey s k m) k2 = storeGet s k2 + if k2 = k then m else 0 := by
  induction s with
  | nil =>
      simp only [incKey, storeGet, Nat.zero_add]
      by_cases h : k = k2
      · subst h; simp
      · rw [if_neg h, if_neg fun h2 => h h2.symm]
  | cons hd tl ih =>
      obtain ⟨k3, c⟩ := hd
      by_cases h3 : k3 = k <;> by_cases h2 : k3 = k2
      · subst h3; subst h2; simp [incKey, storeGet]
      · subst h3
        have h4 : ¬ k2 = k3 := fun h => h2 h.symm
        simp [incKey, storeGet, h2, h4]
      · subst h2
        simp [incKey, storeGet, h3]
      · have h4 : ¬ k2 = k3 := fun h => h2 h.symm
        simp [incKey, storeGet, h3, h2, ih]

theorem storeGet_foldl_incKey (ks : List Key) (s : Store) (k : Key) :
    storeGet (ks.foldl (fun s2 k2 => incKey s2 k2 1) s) k
      = storeGet s k + ks.count k := by
  induction ks generalizing s with
  | nil => simp
  | cons hd tl ih =>
      simp only [List.foldl_cons, ih, storeGet_incKey, List.count_cons, beq_iff_eq]
      by_cases h : k = hd
      · simp [h]; omega
      · simp [h]
        exact fun h2 => h h2.symm

theorem storeGet_train (M : Model) (t : String) (k : Key) :
    storeGet (M.train t).store k
      = storeGet M.store k + (trainIncs M.n (pad M.n (whitespaceTokenize t))).count k := by
  simp [Model.train, storeGet_foldl_incKey]

theorem train_n (M : Model) (t : String) : (M.train t).n = M.n := rfl

/-! ### Windowing lemmas -/

theorem length_ngrams (tokens : List α) (n : Nat) :
    (_ngrams tokens n).length = tokens.length + 1 - n := by
  simp [_ngrams]

theorem get_ngrams (tokens : List α) (n i : Nat) (h : i < (_ngrams tokens n).length) :
    (_ngrams tokens n).get ⟨i, h⟩ = (tokens.drop i).take n := by
  simp [_ngrams]

theorem length_of_mem_ngrams {tokens : List α} {n : Nat} {w : List α}
    (h : w ∈ _ngrams tokens n) : w.length = n := by
  simp only [_ngrams, List.mem_map, List.mem_range] at h
  obtain ⟨i, hi, rfl⟩ := h
  simp only [List.length_take, List.length_drop]
  omega

/-- Claim C9: for a token sequence of length L and order k, the windowing
step produces zero windows when k > L, and exactly L - k + 1 windows when
k <= L, each being the contiguous sub-sequence of exactly k tokens starting
at offset i, enumerated in left-to-right order. -/
theorem C9_ngrams_windowing {α : Type} (tokens : List α) (k : Nat) :
    (tokens.length < k → _ngrams tokens k = [])
  ∧ (k ≤ tokens.length →
        (_ngrams tokens k).length = tokens.length - k + 1
      ∧ ∀ i (h : i < (_ngrams tokens k).length),
          (_ngrams tokens k).get ⟨i, h⟩ = (tokens.drop i).take k
        ∧ ((_ngrams tokens k).get ⟨i, h⟩).length = k) := by
  refine ⟨fun h => ?_, fun h => ⟨?_, fun i hi => ⟨get_ngrams tokens k i hi, ?_⟩⟩⟩
  · have h0 : tokens.length + 1 - k = 0 := by omega
    simp [_ngrams, h0]
  · rw [length_ngrams]; omega
  · exact length_of_mem_ngrams (List.get_mem (_ngrams tokens k) i hi)

/-- C9 witness: the theorem instantiated on the seven-token sequence of
`TestModel.test_ngrams` at order 3, which yields five windows. -/
theorem C9_ngrams_windowing_witness :
    (3 ≤ (List.range 7).length) ∧ (_ngrams (List.range 7) 3).length = 7 - 3 + 1 :=
  ⟨by decide, ((C9_ngrams_windowing (List.range 7) 3).2 (by decide)).1⟩

/-- Claim C10: `train` pads the tokenized sequence with empty-string
boundary tokens on both ends, so after training one sentence the boundary
trigrams mixing "" with real tokens each have count 1 while the all-empty
trigram has count 0. -/
theorem C10_train_pads_boundaries :
    pad 3 (whitespaceTokenize "<S> this is a test string </S>")
      = ["", "", "<S>", "this", "is", "a", "test", "string", "</S>", "", ""]
  ∧ ngram_count (trainAll 3 ["<S> this is a test string </S>"]) ["", "", "<S>"] = 1
  ∧ ngram_count (trainAll 3 ["<S> this is a test string </S>"]) ["", "<S>", "this"] = 1
  ∧ ngram_count (trainAll 3 ["<S> this is a test string </S>"]) ["string", "</S>", ""] = 1
  ∧ ngram_count (trainAll 3 ["<S> this is a test string </S>"]) ["</S>", "", ""] = 1
  ∧ ngram_count (trainAll 3 ["<S> this is a test string </S>"]) ["", "", ""] = 0 :=
  ⟨rfl, rfl, rfl, rfl, rfl, rfl⟩

/-- Claim C5: training a text a second time (from a fresh model) doubles
every n-gram count the text touches and leaves every count it does not touch
unchanged; training only ever adds to counts and never resets one. -/
theorem C5_train_twice_doubles :
    (∀ n t k, storeGet (((Model.empty n).train t).train t).store k
        = 2 * storeGet ((Model.empty n).train t).store k)
  ∧ (∀ (M : Model) t k, k ∉ trainIncs M.n (pad M.n (whitespaceTokenize t)) →
        storeGet (M.train t).store k = storeGet M.store k)
  ∧ (∀ (M : Model) t k, storeGet M.store k ≤ storeGet (M.train t).store k) := by
  refine ⟨fun n t k => ?_, fun M t k hk => ?_, fun M t k => ?_⟩
  · rw [storeGet_train, storeGet_train,
      show ((Model.empty n).train t).n = n from rfl,
      show (Model.empty n).n = n from rfl,
      show storeGet (Model.empty n).store k = 0 from rfl]
    omega
  · rw [storeGet_train, List.count_eq_zero.2 hk, Nat.add_zero]
  · rw [storeGet_train]
    exact Nat.le_add_right _ _

/-- C5 witness: the untouched key (fwd, ["x"]) keeps its count across a
training of "one two three". -/
theorem C5_train_twice_doubles_witness :
    ((Direction.fwd, ["x"]) : Key)
        ∉ trainIncs (Model.empty 3).n (pad (Model.empty 3).n (whitespaceTokenize "one two three"))
  ∧ storeGet ((Model.empty 3).train "one two three").store (Direction.fwd, ["x"])
      = storeGet (Model.empty 3).store (Direction.fwd, ["x"]) :=
  ⟨by decide,
    C5_train_twice_doubles.2.1 (Model.empty 3) "one two three"
      (Direction.fwd, ["x"]) (by decide)⟩

/-- Claim C8: for a context with nonzero count, prob(token, context) equals
count(context ++ [token]) / count(context); after training "one two three"
then "one two four", prob("three", ["one", "two"]) = 1/2, and after only the
first text it equals 1. -/
theorem C8_prob_mle (n : Nat) (ts : List String) (token : Token) (context : List Token) :
    (ngram_count (trainAll n ts) context ≠ 0 →
        prob (trainAll n ts) token context
          = (ngram_count (trainAll n ts) (context ++ [token]) : ℚ)
              / (ngram_count (trainAll n ts) context : ℚ))
  ∧ prob (trainAll 3 ["one two three", "one two four"]) "three" ["one", "two"] = 1/2
  ∧ prob (trainAll 3 ["one two three"]) "three" ["one", "two"] = 1 := by
  refine ⟨fun h => ?_, ?_, ?_⟩
  · simp [prob, h]
  · norm_num [prob,
      show ngram_count (trainAll 3 ["one two three", "one two four"])
        ["one", "two", "three"] = 1 from rfl,
      show ngram_count (trainAll 3 ["one two three", "one two four"])
        ["one", "two"] = 2 from rfl]
  · norm_num [prob,
      show ngram_count (trainAll 3 ["one two three"]) ["one", "two", "three"] = 1 from rfl,
      show ngram_count (trainAll 3 ["one two three"]) ["one", "two"] = 1 from rfl]

/-- C8 witness: the maximum-likelihood formula instantiated on the two
trained texts of `TestModel.test_prob_with_counts`. -/
theorem C8_prob_mle_witness :
    ngram_count (trainAll 3 ["one two three", "one two four"]) ["one", "two"] ≠ 0
  ∧ prob (trainAll 3 ["one two three", "one two four"]) "three" ["one", "two"]
      = (ngram_count (trainAll 3 ["one two three", "one two four"])
            (["one", "two"] ++ ["three"]) : ℚ)
          / (ngram_count (trainAll 3 ["one two three", "one two four"]) ["one", "two"] : ℚ) :=
  ⟨by decide,
    (C8_prob_mle 3 ["one two three", "one two four"] "three" ["one", "two"]).1 (by decide)⟩

/-! ### Forward/reverse key counting -/

theorem count_flatMap_eq_sum {α β : Type} [BEq β] (l : List α) (f : α → List β) (b : β) :
    (l.flatMap f).count b = (l.map fun a => (f a).count b).sum := by
  induction l with
  | nil => simp
  | cons hd tl ih => simp [List.flatMap_cons, List.count_append, ih]

theorem count_map_inj {α β : Type} [BEq α] [BEq β] [LawfulBEq α] [LawfulBEq β]
    (l : List α) (f : α → β) (hf : Function.Injective f) (x : α) :
    (l.map f).count (f x) = l.count x := by
  induction l with
  | nil => rfl
  | cons hd tl ih =>
      rw [List.map_cons, List.count_cons, List.count_cons, ih]
      by_cases h : x = hd
      · subst h; simp
      · have h2 : f x ≠ f hd := fun hh => h (hf hh)
        simp [beq_iff_eq, h, h2, Ne.symm h, Ne.symm h2]

theorem fwd_pair_injective : Function.Injective fun w : List Token => ((Direction.fwd, w) : Key) :=
  fun a b hab => by simpa using hab

theorem rev_pair_injective :
    Function.Injective fun w : List Token => ((Direction.rev, w.reverse) : Key) := by
  intro a b hab
  have h2 : a.reverse = b.reverse := by simpa using hab
  simpa using congrArg List.reverse h2

theorem count_orderIncs_fwd (n k : Nat) (padded w : List Token) (h : w.length = n) :
    (orderIncs n k padded).count ((Direction.fwd, w) : Key)
      = if k = n then (_ngrams padded n).count w else 0 := by
  unfold orderIncs
  rw [List.count_append]
  by_cases hk : k = n
  · subst hk
    rw [if_pos rfl, if_pos rfl]
    have h1 : (((_ngrams padded k).map fun u => ((Direction.rev, u.reverse) : Key)).count
        ((Direction.fwd, w) : Key)) = 0 := by
      refine List.count_eq_zero.2 ?_
      simp
    rw [h1, Nat.add_zero]
    exact count_map_inj _ _ fwd_pair_injective w
  · rw [if_neg hk, if_neg hk]
    have h1 : (((_ngrams padded k).map fun u => ((Direction.fwd, u) : Key)).count
        ((Direction.fwd, w) : Key)) = 0 := by
      refine List.count_eq_zero.2 ?_
      simp only [List.mem_map, not_exists, not_and]
      intro u hu h2
      have h3 : u = w := by simpa using h2
      subst h3
      exact hk (by rw [← h, length_of_mem_ngrams hu])
    rw [h1]
    simp

theorem count_orderIncs_rev (n k : Nat) (padded w : List Token) (h : w.length = n) :
    (orderIncs n k padded).count ((Direction.rev, w.reverse) : Key)
      = if k = n then (_ngrams padded n).count w else 0 := by
  unfold orderIncs
  rw [List.count_append]
  have h1 : (((_ngrams padded k).map fun u => ((Direction.fwd, u) : Key)).count
      ((Direction.rev, w.reverse) : Key)) = 0 := by
    refine List.count_eq_zero.2 ?_
    simp
  rw [h1, Nat.zero_add]
  by_cases hk : k = n
  · subst hk
    rw [if_pos rfl, if_pos rfl]
    exact count_map_inj _ _ rev_pair_injective w
  · rw [if_neg hk, if_neg hk]
    simp

theorem count_orderIncs_rev_zero (n k : Nat) (padded w : List Token) (h : w.length ≠ n) :
    (orderIncs n k padded).count ((Direction.rev, w) : Key) = 0 := by
  unfold orderIncs
  rw [List.count_append]
  have h1 : (((_ngrams padded k).map fun u => ((Direction.fwd, u) : Key)).count
      ((Direction.rev, w) : Key)) = 0 := by
    refine List.count_eq_zero.2 ?_
    simp
  rw [h1, Nat.zero_add]
  by_cases hk : k = n
  · subst hk
    rw [if_pos rfl]
    refine List.count_eq_zero.2 ?_
    simp only [List.mem_map, not_exists, not_and]
    intro u hu h2
    have h3 : u.reverse = w := by simpa using h2
    refine h ?_
    rw [← h3, List.length_reverse, length_of_mem_ngrams hu]
  · rw [if_neg hk]
    simp

theorem count_trainIncs_rev_eq_fwd (n : Nat) (padded w : List Token) (h : w.length = n) :
    (trainIncs n padded).count ((Direction.rev, w.reverse) : Key)
      = (trainIncs n padded).count ((Direction.fwd, w) : Key) := by
  unfold trainIncs
  rw [count_flatMap_eq_sum, count_flatMap_eq_sum]
  congr 1
  refine List.map_congr_left fun k hk => ?_
  rw [count_orderIncs_rev n k padded w h, count_orderIncs_fwd n k padded w h]

theorem count_trainIncs_rev_zero (n : Nat) (padded w : List Token) (h : w.length ≠ n) :
    (trainIncs n padded).count ((Direction.rev, w) : Key) = 0 := by
  unfold trainIncs
  rw [count_flatMap_eq_sum]
  refine List.sum_eq_zero fun x hx => ?_
  simp only [List.mem_map] at hx
  obtain ⟨k, hk, rfl⟩ := hx
  exact count_orderIncs_rev_zero n k padded w h

theorem rev_eq_fwd_trainAll (n : Nat) (ts : List String) (w : List Token) (h : w.length = n) :
    storeGet (trainAll n ts).store (Direction.rev, w.reverse)
      = storeGet (trainAll n ts).store (Direction.fwd, w) := by
  have key : ∀ (us : List String) (M : Model), M.n = n →
      storeGet M.store (Direction.rev, w.reverse) = storeGet M.store (Direction.fwd, w) →
      storeGet (us.foldl Model.train M).store (Direction.rev, w.reverse)
        = storeGet (us.foldl Model.train M).store (Direction.fwd, w) := by
    intro us
    induction us with
    | nil => exact fun M h1 h2 => h2
    | cons hd tl ih =>
        intro M h1 h2
        refine ih (M.train hd) (by rw [train_n, h1]) ?_
        rw [storeGet_train, storeGet_train, h2, h1,
          count_trainIncs_rev_eq_fwd n _ w h]
  exact key ts (Model.empty n) rfl rfl

theorem rev_zero_trainAll (n : Nat) (ts : List String) (w : List Token) (h : w.length ≠ n) :
    storeGet (trainAll n ts).store (Direction.rev, w) = 0 := by
  have key : ∀ (us : List String) (M : Model), M.n = n →
      storeGet M.store (Direction.rev, w) = 0 →
      storeGet (us.foldl Model.train M).store (Direction.rev, w) = 0 := by
    intro us
    induction us with
    | nil => exact fun M h1 h2 => h2
    | cons hd tl ih =>
        intro M h1 h2
        refine ih (M.train hd) (by rw [train_n, h1]) ?_
        rw [storeGet_train, h2, h1, count_trainIncs_rev_zero n _ w h]
  exact key ts (Model.empty n) rfl rfl

/-- C3 counterexample: the claim fails for order 2. After training
"one two three", the order-2 window ("one", "two") has forward count 1, but
the reverse index holds no corresponding entry at all: the reverse count of
("two", "one") is 0, not 1. Only top-order windows are reverse-indexed, as
`TestModel.test_train` requires (it asserts the reverse index holds exactly
as many entries as the top-order forward index). -/
theorem C3_counterexample :
    ngram_count (trainAll 3 ["one two three"]) ["one", "two"] = 1
  ∧ storeGet (trainAll 3 ["one two three"]).store (Direction.rev, ["two", "one"]) = 0 :=
  ⟨rfl, rfl⟩

/-- Claim C3 (amended): for every train history, windows of the top
configured order produce both a forward entry and a reverse entry whose
counts merge identically, while windows of any other length produce no
reverse entry at all. -/
theorem C3_reverse_entries_top_order (n : Nat) (ts : List String) (w : List Token) :
    (w.length = n →
        storeGet (trainAll n ts).store (Direction.rev, w.reverse)
          = storeGet (trainAll n ts).store (Direction.fwd, w))
  ∧ (w.length ≠ n → storeGet (trainAll n ts).store (Direction.rev, w) = 0) :=
  ⟨fun h => rev_eq_fwd_trainAll n ts w h, fun h => rev_zero_trainAll n ts w h⟩

/-- C3 witness: instantiated after training "one two three" with the default
top order 3: the trigram window matches its reverse entry, and the bigram
window ("one", "two") has no reverse entry. -/
theorem C3_reverse_entries_top_order_witness :
    storeGet (trainAll 3 ["one two three"]).store (Direction.rev, ["one", "two", "three"].reverse)
      = storeGet (trainAll 3 ["one two three"]).store (Direction.fwd, ["one", "two", "three"])
  ∧ storeGet (trainAll 3 ["one two three"]).store (Direction.rev, ["one", "two"]) = 0 :=
  ⟨(C3_reverse_entries_top_order 3 ["one two three"] ["one", "two", "three"]).1 (by decide),
    (C3_reverse_entries_top_order 3 ["one two three"] ["one", "two"]).2 (by decide)⟩

/-! ### logprob -/

theorem prob_concrete_half :
    prob (trainAll 3 ["one two three", "one two four"]) "three" ["one", "two"] = 1/2 := by
  norm_num [prob,
    show ngram_count (trainAll 3 ["one two three", "one two four"])
      ["one", "two", "three"] = 1 from rfl,
    show ngram_count (trainAll 3 ["one two three", "one two four"])
      ["one", "two"] = 2 from rfl]

theorem log_two_ne_zero : Real.log 2 ≠ 0 :=
  ne_of_gt (Real.log_pos (by norm_num))

theorem logprob_concrete_one :
    logprob (trainAll 3 ["one two three", "one two four"]) "three" ["one", "two"] = 1 := by
  unfold logprob
  rw [prob_concrete_half]
  have h2 : (((1 : ℚ)/2 : ℚ) : ℝ) = 2⁻¹ := by norm_num
  rw [h2, Real.log_inv, neg_div, neg_neg]
  exact div_self log_two_ne_zero

/-- C1 counterexample: the claim's natural-logarithm reading fails on the
instance pinned by `TestModel.test_logprob_with_counts`: after training
"one two three" and "one two four", logprob("three", ["one", "two"]) is 1.0
(the negative base-2 logarithm of the 0.5 count ratio), not ln(0.5). -/
theorem C1_counterexample :
    logprob (trainAll 3 ["one two three", "one two four"]) "three" ["one", "two"]
      ≠ Real.log ((ngram_count (trainAll 3 ["one two three", "one two four"])
            (["one", "two"] ++ ["three"]) : ℝ)
          / (ngram_count (trainAll 3 ["one two three", "one two four"]) ["one", "two"] : ℝ)) := by
  rw [logprob_concrete_one,
    show ngram_count (trainAll 3 ["one two three", "one two four"])
      (["one", "two"] ++ ["three"]) = 1 from rfl,
    show ngram_count (trainAll 3 ["one two three", "one two four"])
      ["one", "two"] = 2 from rfl]
  intro heq
  have h1 : Real.log ((1 : ℕ) / ((2 : ℕ) : ℝ)) < 0 := by
    refine Real.log_neg (by norm_num) (by norm_num)
  rw [← heq] at h1
  norm_num at h1

/-- Claim C1 (amended): for a context with nonzero count, logprob(token,
context) equals the negative base-2 logarithm of
count(context ++ [token]) / count(context); in particular, after training
"one two three" and "one two four", logprob("three", ["one", "two"]) = 1. -/
theorem C1_logprob_neg_log2 (n : Nat) (ts : List String) (token : Token) (context : List Token) :
    (ngram_count (trainAll n ts) context ≠ 0 →
        logprob (trainAll n ts) token context
          = -(Real.log ((ngram_count (trainAll n ts) (context ++ [token]) : ℝ)
                / (ngram_count (trainAll n ts) context : ℝ)) / Real.log 2))
  ∧ logprob (trainAll 3 ["one two three", "one two four"]) "three" ["one", "two"] = 1 := by
  refine ⟨fun h => ?_, logprob_concrete_one⟩
  unfold logprob prob
  simp only [if_neg h]
  push_cast
  rfl

/-- C1 witness: the amended formula instantiated on the two trained texts of
`TestModel.test_logprob_with_counts`. -/
theorem C1_logprob_neg_log2_witness :
    ngram_count (trainAll 3 ["one two three", "one two four"]) ["one", "two"] ≠ 0
  ∧ logprob (trainAll 3 ["one two three", "one two four"]) "three" ["one", "two"]
      = -(Real.log ((ngram_count (trainAll 3 ["one two three", "one two four"])
            (["one", "two"] ++ ["three"]) : ℝ)
          / (ngram_count (trainAll 3 ["one two three", "one two four"]) ["one", "two"] : ℝ))
        / Real.log 2) :=
  ⟨by decide,
    (C1_logprob_neg_log2 3 ["one two three", "one two four"] "three" ["one", "two"]).1
      (by decide)⟩

/-! ### Token registry -/

/-- Modelled from the spec: the variable-length token-id representation
(§4.1 and Design Notes §9: ids must not be capped at a byte's range; a
variable-length multi-byte integer id keeps vocabulary unbounded).
Little-endian base-128 bytes with a continuation bit; it agrees with the
single byte chr(id) that `TestTokenRegistry.test_get_new_tokens` observes
for ids below 128. -/
def varintEncode (k : Nat) : List Nat :=
  if _h : k < 128 then [k]
  else (k % 128 + 128) :: varintEncode (k / 128)
termination_by k
decreasing_by exact Nat.div_lt_self (by omega) (by omega)

theorem varintEncode_lt (k : Nat) (h : k < 128) : varintEncode k = [k] := by
  rw [varintEncode.eq_def, dif_pos h]

theorem varintEncode_ge (k : Nat) (h : ¬ k < 128) :
    varintEncode k = (k % 128 + 128) :: varintEncode (k / 128) := by
  rw [varintEncode.eq_def, dif_neg h]

theorem varintEncode_injective : Function.Injective varintEncode := by
  intro a
  induction a using Nat.strong_induction_on with
  | _ a ih =>
    intro b hab
    by_cases ha : a < 128 <;> by_cases hb : b < 128
    · rw [varintEncode_lt a ha, varintEncode_lt b hb] at hab
      simpa using hab
    · rw [varintEncode_lt a ha, varintEncode_ge b hb] at hab
      simp only [List.cons.injEq] at hab
      omega
    · rw [varintEncode_ge a ha, varintEncode_lt b hb] at hab
      simp only [List.cons.injEq] at hab
      omega
    · rw [varintEncode_ge a ha, varintEncode_ge b hb] at hab
      simp only [List.cons.injEq] at hab
      obtain ⟨h1, h2⟩ := hab
      have h3 : a / 128 = b / 128 :=
        ih (a / 128) (Nat.div_lt_self (by omega) (by omega)) h2
      omega

/-- Modelled from the spec: the Token Registry (§3, §4.1; `cobe/model.py` is
not shipped): tokens are recorded in first-seen order and each token's id is
the variable-length encoding of its allocation index. The registry is
generic in the token type, as a Python dict is. -/
structure TokenRegistry (α : Type) where
  seen : List α

/-- Modelled from the spec: `TokenRegistry.get_id` (§4.1): return the
existing id when the token is known, otherwise allocate the next unused id
(the encoding of the current registry size) and record the pair. Returns the
updated registry together with the id. -/
def TokenRegistry.get_id {α : Type} [DecidableEq α] (r : TokenRegistry α) (t : α) :
    TokenRegistry α × List Nat :=
  if t ∈ r.seen then (r, varintEncode (r.seen.indexOf t))
  else (⟨r.seen ++ [t]⟩, varintEncode r.seen.length)

/-- Register every token of a list in turn, starting from a fresh registry. -/
def registerAll {α : Type} [DecidableEq α] (toks : List α) : TokenRegistry α :=
  toks.foldl (fun r t => (r.get_id t).1) ⟨[]⟩

theorem mem_seen_foldl {α : Type} [DecidableEq α] (toks : List α) (r : TokenRegistry α)
    (t : α) (h : t ∈ r.seen ∨ t ∈ toks) :
    t ∈ (toks.foldl (fun r2 t2 => (r2.get_id t2).1) r).seen := by
  induction toks generalizing r with
  | nil => simpa using h
  | cons hd tl ih =>
      rw [List.foldl_cons]
      refine ih _ ?_
      rcases h with h | h
      · refine Or.inl ?_
        by_cases h2 : hd ∈ r.seen
        · simpa [TokenRegistry.get_id, h2] using h
        · simp [TokenRegistry.get_id, h2]
          exact Or.inl h
      · rcases List.mem_cons.1 h with h | h
        · subst h
          refine Or.inl ?_
          by_cases h2 : t ∈ r.seen
          · simp [TokenRegistry.get_id, h2]
          · simp [TokenRegistry.get_id, h2]
        · exact Or.inr h

theorem mem_seen_registerAll {α : Type} [DecidableEq α] (toks : List α) (t : α)
    (h : t ∈ toks) : t ∈ (registerAll toks).seen :=
  mem_seen_foldl toks ⟨[]⟩ t (Or.inr h)

/-- Claim C2: the identifier representation is not capped at a byte's range:
for every input with more than 256 distinct tokens, `get_id` still gives any
two distinct tokens of the input distinct ids. -/
theorem C2_ids_distinct {α : Type} [DecidableEq α] (toks : List α)
    (_hbig : 256 < toks.dedup.length) :
    ∀ t1 ∈ toks, ∀ t2 ∈ toks, t1 ≠ t2 →
      ((registerAll toks).get_id t1).2 ≠ ((registerAll toks).get_id t2).2 := by
  intro t1 h1 t2 h2 hne
  have m1 : t1 ∈ (registerAll toks).seen := mem_seen_registerAll toks t1 h1
  have m2 : t2 ∈ (registerAll toks).seen := mem_seen_registerAll toks t2 h2
  simp only [TokenRegistry.get_id, if_pos m1, if_pos m2]
  intro heq
  exact hne ((List.indexOf_inj m1 m2).1 (varintEncode_injective heq))

set_option maxRecDepth 8000 in
/-- C2 witness: 257 distinct tokens still get pairwise distinct ids; in
particular token 0 and token 256 do. -/
theorem C2_ids_distinct_witness :
    ((registerAll (List.range 257)).get_id 0).2
      ≠ ((registerAll (List.range 257)).get_id 256).2 :=
  C2_ids_distinct (List.range 257) (by decide) 0 (by decide) 256 (by decide) (by decide)

/-! ### Store well-formedness -/

/-- Each key occurs at most once among the store's entries. -/
def Model.WF (M : Model) : Prop := (M.store.map Prod.fst).Nodup

theorem mem_keys_incKey (s : Store) (k k2 : Key) (m : Nat) :
    k2 ∈ (incKey s k m).map Prod.fst ↔ k2 ∈ s.map Prod.fst ∨ k2 = k := by
  induction s with
  | nil => simp [incKey]
  | cons hd tl ih =>
      obtain ⟨k3, c⟩ := hd
      by_cases h3 : k3 = k
      · subst h3
        simp only [incKey, reduceIte, List.map_cons, List.mem_cons]
        tauto
      · simp only [incKey, if_neg h3, List.map_cons, List.mem_cons, ih]
        tauto

theorem nodup_keys_incKey (s : Store) (k : Key) (m : Nat)
    (h : (s.map Prod.fst).Nodup) : ((incKey s k m).map Prod.fst).Nodup := by
  induction s with
  | nil => simp [incKey]
  | cons hd tl ih =>
      obtain ⟨k3, c⟩ := hd
      rw [List.map_cons, List.nodup_cons] at h
      by_cases h3 : k3 = k
      · subst h3
        simp only [incKey, reduceIte, List.map_cons, List.nodup_cons]
        exact h
      · simp only [incKey, if_neg h3, List.map_cons, List.nodup_cons]
        refine ⟨fun hmem => ?_, ih h.2⟩
        rcases (mem_keys_incKey tl k k3 m).1 hmem with h4 | h4
        · exact h.1 h4
        · exact h3 h4

theorem WF_train (M : Model) (t : String) (h : M.WF) : (M.train t).WF := by
  unfold Model.WF Model.train
  generalize trainIncs M.n (pad M.n (whitespaceTokenize t)) = ks
  induction ks generalizing M with
  | nil => exact h
  | cons hd tl ih =>
      rw [List.foldl_cons]
      exact ih ⟨M.n, incKey M.store hd 1⟩ (nodup_keys_incKey M.store hd 1 h)

theorem WF_trainAll (n : Nat) (ts : List String) : (trainAll n ts).WF := by
  have key : ∀ (us : List String) (M : Model), M.WF → (us.foldl Model.train M).WF := by
    intro us
    induction us with
    | nil => exact fun M h => h
    | cons hd tl ih => exact fun M h => ih (M.train hd) (WF_train M hd h)
  exact key ts (Model.empty n) (by simp [Model.WF, Model.empty])

theorem storeGet_eq_of_mem {s : Store} (h : (s.map Prod.fst).Nodup) {k : Key} {c : Nat}
    (hmem : (k, c) ∈ s) : storeGet s k = c := by
  induction s with
  | nil => simp at hmem
  | cons hd tl ih =>
      obtain ⟨k2, c2⟩ := hd
      rw [List.map_cons, List.nodup_cons] at h
      rcases List.mem_cons.1 hmem with h2 | h2
      · injection h2 with h3 h4
        subst h3; subst h4
        simp [storeGet]
      · have h5 : ¬ k2 = k := by
          intro h6
          subst h6
          exact h.1 (List.mem_map.2 ⟨(k2, c), h2, rfl⟩)
        simp only [storeGet, if_neg h5]
        exact ih h.2 h2

theorem mem_of_storeGet_pos {s : Store} {k : Key} {c : Nat}
    (h : storeGet s k = c) (hc : 0 < c) : (k, c) ∈ s := by
  induction s with
  | nil => simp [storeGet] at h; omega
  | cons hd tl ih =>
      obtain ⟨k2, c2⟩ := hd
      by_cases h2 : k2 = k
      · subst h2
        simp only [storeGet, if_pos rfl] at h
        subst h
        exact List.mem_cons_self ..
      · simp only [storeGet, if_neg h2] at h
        exact List.mem_cons_of_mem _ (ih h)

/-! ### Weighted sampling -/

/-- Modelled from the spec: cumulative-weight sampling (§4.5): walk the
candidates in scan order and pick the one whose cumulative weight range
contains the draw. The injected random source is modelled by the draw `r`
itself (one uniform draw over the cumulative weight range). -/
def weightedChoice {α : Type} : List (α × Nat) → Nat → Option α
  | [], _ => none
  | (a, w) :: rest, r => if r < w then some a else weightedChoice rest (r - w)

/-- The cumulative weight range of a candidate list. -/
def totalWeight {α : Type} (l : List (α × Nat)) : Nat := (l.map Prod.snd).sum

theorem weightedChoice_eq_some {α : Type} {l : List (α × Nat)} {r : Nat} {a : α}
    (h : weightedChoice l r = some a) : ∃ c, (a, c) ∈ l ∧ 0 < c := by
  induction l generalizing r with
  | nil => simp [weightedChoice] at h
  | cons hd rest ih =>
      obtain ⟨b, w⟩ := hd
      by_cases h2 : r < w
      · simp only [weightedChoice, if_pos h2] at h
        injection h with h3
        subst h3
        exact ⟨w, List.mem_cons_self .., by omega⟩
      · simp only [weightedChoice, if_neg h2] at h
        obtain ⟨c, hc, hpos⟩ := ih h
        exact ⟨c, List.mem_cons_of_mem _ hc, hpos⟩

theorem filterMap_eq_replicate_of_const {α β : Type} {l : List α} {f : α → Option β} {b : β}
    (h : ∀ x ∈ l, f x = some b) : l.filterMap f = List.replicate l.length b := by
  induction l with
  | nil => simp
  | cons hd tl ih =>
      rw [List.filterMap_cons, h hd (List.mem_cons_self ..), List.length_cons,
        List.replicate_succ, ih fun x hx => h x (List.mem_cons_of_mem _ hx)]

theorem range_filterMap_weightedChoice {α : Type} (l : List (α × Nat)) :
    (List.range (totalWeight l)).filterMap (weightedChoice l)
      = l.flatMap fun p => List.replicate p.2 p.1 := by
  induction l with
  | nil => simp [totalWeight, weightedChoice, List.filterMap_nil]
  | cons p rest ih =>
      obtain ⟨b, w⟩ := p
      have htot : totalWeight ((b, w) :: rest) = w + totalWeight rest := by
        simp [totalWeight]
      rw [htot, List.range_add, List.filterMap_append, List.flatMap_cons]
      have hconst : ∀ r ∈ List.range w, weightedChoice ((b, w) :: rest) r = some b :=
        fun r hr => by simp only [weightedChoice, if_pos (List.mem_range.1 hr)]
      have h1 : (List.range w).filterMap (weightedChoice ((b, w) :: rest))
          = List.replicate w b := by
        rw [filterMap_eq_replicate_of_const hconst, List.length_range]
      have hfun : (weightedChoice ((b, w) :: rest) ∘ fun x => w + x)
          = weightedChoice rest := by
        funext r
        show weightedChoice ((b, w) :: rest) (w + r) = weightedChoice rest r
        simp only [weightedChoice, if_neg (by omega : ¬ w + r < w),
          Nat.add_sub_cancel_left]
      have h2 : ((List.range (totalWeight rest)).map (w + ·)).filterMap
          (weightedChoice ((b, w) :: rest))
          = (List.range (totalWeight rest)).filterMap (weightedChoice rest) := by
        rw [List.filterMap_map, hfun]
      rw [h1, h2, ih]

/-! ### Candidate scans -/

theorem eq_append_of_take_of_getLast {α : Type} {l c : List α} {w : α}
    (h1 : l.length = c.length + 1) (h2 : l.take c.length = c)
    (h3 : l.getLast? = some w) : l = c ++ [w] := by
  have h4 : (l.drop c.length).length = 1 := by
    rw [List.length_drop]; omega
  obtain ⟨x, hx⟩ := List.length_eq_one.1 h4
  have h5 : l = c ++ [x] := by
    rw [← h2, ← hx, List.take_append_drop]
  subst h5
  rw [List.getLast?_concat] at h3
  injection h3 with h6
  subst h6
  rfl

/-- Modelled from the spec: the candidate scan of `choose_random_word`
(§4.5): forward entries one order above the context length whose token
sequence extends the context, paired with the trailing token and its count,
in store scan order. -/
def candWords (M : Model) (ctx : List Token) : List (Token × Nat) :=
  M.store.filterMap fun kv =>
    if kv.1.1 = Direction.fwd ∧ kv.1.2.length = ctx.length + 1
        ∧ kv.1.2.take ctx.length = ctx ∧ 0 < kv.2
    then kv.1.2.getLast?.map fun w => (w, kv.2)
    else none

/-- Modelled from the spec: `Model.choose_random_word` (§4.5): weighted
random choice over the context's observed continuations; the explicit
"no data" result is `none`. -/
def choose_random_word (M : Model) (ctx : List Token) (r : Nat) : Option Token :=
  weightedChoice (candWords M ctx) r

theorem candWords_key {ctx : List Token} {kv : Key × Nat} {w : Token} {c : Nat}
    (h : (if kv.1.1 = Direction.fwd ∧ kv.1.2.length = ctx.length + 1
        ∧ kv.1.2.take ctx.length = ctx ∧ 0 < kv.2
      then kv.1.2.getLast?.map fun w2 => (w2, kv.2)
      else none) = some (w, c)) :
    kv.1 = (Direction.fwd, ctx ++ [w]) ∧ kv.2 = c ∧ 0 < c := by
  by_cases hp : kv.1.1 = Direction.fwd ∧ kv.1.2.length = ctx.length + 1
      ∧ kv.1.2.take ctx.length = ctx ∧ 0 < kv.2
  · rw [if_pos hp] at h
    obtain ⟨hd, hlen, htake, hpos⟩ := hp
    rcases hlast : kv.1.2.getLast? with _ | w2
    · rw [hlast] at h; exact Option.noConfusion h
    · rw [hlast] at h
      injection h with h2
      injection h2 with h3 h4
      refine ⟨?_, h4, h4 ▸ hpos⟩
      have h5 : kv.1.2 = ctx ++ [w] :=
        eq_append_of_take_of_getLast hlen htake (h3 ▸ hlast)
      exact Prod.ext hd h5
  · rw [if_neg hp] at h
    simp at h

theorem mem_candWords {M : Model} (hWF : M.WF) (ctx : List Token) (w : Token) (c : Nat) :
    (w, c) ∈ candWords M ctx ↔ ngram_count M (ctx ++ [w]) = c ∧ 0 < c := by
  constructor
  · intro h
    obtain ⟨⟨k1, c1⟩, hkv, hsome⟩ := List.mem_filterMap.1 h
    obtain ⟨hkey, hc, hpos⟩ := candWords_key hsome
    refine ⟨?_, hpos⟩
    unfold ngram_count
    rw [← hkey, ← hc]
    exact storeGet_eq_of_mem hWF hkv
  · intro ⟨h, hpos⟩
    refine List.mem_filterMap.2 ⟨((Direction.fwd, ctx ++ [w]), c), mem_of_storeGet_pos h hpos, ?_⟩
    rw [if_pos ⟨rfl, by simp, by rw [List.take_left], hpos⟩]
    rw [List.getLast?_concat]
    rfl

theorem nodup_filterMap_of_key {β : Type} (g : Key × Nat → Option β) (key : β → Key)
    (hkey : ∀ kv b, g kv = some b → kv.1 = key b) :
    ∀ (s : Store), (s.map Prod.fst).Nodup → (s.filterMap g).Nodup := by
  intro s
  induction s with
  | nil => intro _; simp
  | cons kv rest ih =>
      intro h
      rw [List.map_cons, List.nodup_cons] at h
      rw [List.filterMap_cons]
      rcases hg : g kv with _ | b
      · exact ih h.2
      · refine List.nodup_cons.2 ⟨?_, ih h.2⟩
        intro hmem
        obtain ⟨kv2, hkv2, hg2⟩ := List.mem_filterMap.1 hmem
        have e1 : kv.1 = key b := hkey kv b hg
        have e2 : kv2.1 = key b := hkey kv2 b hg2
        refine h.1 ?_
        rw [e1, ← e2]
        exact List.mem_map.2 ⟨kv2, hkv2, rfl⟩

theorem candWords_nodup (M : Model) (hWF : M.WF) (ctx : List Token) :
    (candWords M ctx).Nodup := by
  refine nodup_filterMap_of_key _ (fun p => (Direction.fwd, ctx ++ [p.1])) ?_ M.store hWF
  intro kv b hg
  obtain ⟨w, c⟩ := b
  exact (candWords_key hg).1

theorem eq_singleton_of_mem_of_all {α : Type} {l : List α} {x : α}
    (hnd : l.Nodup) (hmem : x ∈ l) (hall : ∀ y ∈ l, y = x) : l = [x] := by
  cases l with
  | nil => simp at hmem
  | cons a tl =>
      have ha : a = x := hall a (List.mem_cons_self ..)
      subst ha
      rw [List.nodup_cons] at hnd
      have htl : tl = [] := by
        cases tl with
        | nil => rfl
        | cons b tl2 =>
            have hb : b = a := hall b (List.mem_cons_of_mem _ (List.mem_cons_self ..))
            subst hb
            exact absurd (List.mem_cons_self ..) hnd.1
      rw [htl]

/-- Claim C7: for a context never observed in training,
`choose_random_word` returns the explicit "no data" result `none`; when
exactly one continuation of the context was trained, it deterministically
returns that unique word for every valid draw. -/
theorem C7_choose_random_word_no_data (n : Nat) (ts : List String) (ctx : List Token) :
    ((∀ w, ngram_count (trainAll n ts) (ctx ++ [w]) = 0) →
        ∀ r, choose_random_word (trainAll n ts) ctx r = none)
  ∧ (∀ w0, (∀ w, 0 < ngram_count (trainAll n ts) (ctx ++ [w]) ↔ w = w0) →
        ∀ r, r < ngram_count (trainAll n ts) (ctx ++ [w0]) →
          choose_random_word (trainAll n ts) ctx r = some w0) := by
  have hWF := WF_trainAll n ts
  constructor
  · intro h r
    have hempty : candWords (trainAll n ts) ctx = [] := by
      rcases hcand : candWords (trainAll n ts) ctx with _ | ⟨⟨w, c⟩, rest⟩
      · rfl
      · exfalso
        have hmem : (w, c) ∈ candWords (trainAll n ts) ctx := by
          rw [hcand]; exact List.mem_cons_self ..
        obtain ⟨hc, hpos⟩ := (mem_candWords hWF ctx w c).1 hmem
        rw [h w] at hc
        omega
    rw [choose_random_word, hempty]
    rfl
  · intro w0 huniq r hr
    have hpos : 0 < ngram_count (trainAll n ts) (ctx ++ [w0]) := by omega
    have hmem : (w0, ngram_count (trainAll n ts) (ctx ++ [w0]))
        ∈ candWords (trainAll n ts) ctx :=
      (mem_candWords hWF ctx w0 _).2 ⟨rfl, hpos⟩
    have hall : ∀ y ∈ candWords (trainAll n ts) ctx,
        y = (w0, ngram_count (trainAll n ts) (ctx ++ [w0])) := by
      intro y hy
      obtain ⟨w, c⟩ := y
      obtain ⟨hc, hcpos⟩ := (mem_candWords hWF ctx w c).1 hy
      have hw : w = w0 := (huniq w).1 (by omega)
      subst hw
      rw [hc]
    have hsing : candWords (trainAll n ts) ctx
        = [(w0, ngram_count (trainAll n ts) (ctx ++ [w0]))] :=
      eq_singleton_of_mem_of_all (candWords_nodup _ hWF ctx) hmem hall
    rw [choose_random_word, hsing]
    simp only [weightedChoice, if_pos hr]

/-- The store contents after training "one two three" with the default
order 3, evaluated once for reuse in concrete instantiations. -/
theorem store_one_two_three :
    (trainAll 3 ["one two three"]).store =
      [((Direction.fwd, ["", "", "one"]), 1),
       ((Direction.fwd, ["", "one", "two"]), 1),
       ((Direction.fwd, ["one", "two", "three"]), 1),
       ((Direction.fwd, ["two", "three", ""]), 1),
       ((Direction.fwd, ["three", "", ""]), 1),
       ((Direction.rev, ["one", "", ""]), 1),
       ((Direction.rev, ["two", "one", ""]), 1),
       ((Direction.rev, ["three", "two", "one"]), 1),
       ((Direction.rev, ["", "three", "two"]), 1),
       ((Direction.rev, ["", "", "three"]), 1),
       ((Direction.fwd, ["", ""]), 2),
       ((Direction.fwd, ["", "one"]), 1),
       ((Direction.fwd, ["one", "two"]), 1),
       ((Direction.fwd, ["two", "three"]), 1),
       ((Direction.fwd, ["three", ""]), 1),
       ((Direction.fwd, [""]), 4),
       ((Direction.fwd, ["one"]), 1),
       ((Direction.fwd, ["two"]), 1),
       ((Direction.fwd, ["three"]), 1)] := rfl

/-- C7 witness: on the model of `TestModel.test_choose_random_word` (only
"one two three" trained), the untrained context ["missing", "context"]
returns `none` and the context ["one", "two"] deterministically returns
"three". -/
theorem C7_choose_random_word_no_data_witness :
    choose_random_word (trainAll 3 ["one two three"]) ["missing", "context"] 0 = none
  ∧ choose_random_word (trainAll 3 ["one two three"]) ["one", "two"] 0 = some "three" := by
  constructor
  · refine (C7_choose_random_word_no_data 3 ["one two three"] ["missing", "context"]).1 ?_ 0
    intro w
    rw [ngram_count, store_one_two_three]
    simp [storeGet]
  · refine (C7_choose_random_word_no_data 3 ["one two three"] ["one", "two"]).2 "three" ?_ 0
      (by decide)
    intro w
    rw [ngram_count, store_one_two_three]
    rcases eq_or_ne w "three" with h | h
    · subst h; simp [storeGet]
    · simp [storeGet, h, Ne.symm h]

/-- Modelled from the spec: the candidate scan of `choose_random_context`
(§4.5): the top-order entries indexed under the given token — the n-grams
whose stored reverse entry trails with the token, i.e. whose forward form
leads with it (`TestModel.test_choose_random_context` pins the returned
sequence as starting with the token). They are produced in forward token
order, paired with their counts, in store scan order. -/
def ctxCands (M : Model) (t : Token) : List (List Token × Nat) :=
  M.store.filterMap fun kv =>
    if kv.1.1 = Direction.fwd ∧ kv.1.2.length = M.n ∧ kv.1.2.head? = some t ∧ 0 < kv.2
    then some (kv.1.2, kv.2)
    else none

/-- Modelled from the spec: `Model.choose_random_context` (§4.5): weighted
random choice over the top-order n-grams indexed under the token, returned
in forward order; the explicit "no data" result is `none`. -/
def choose_random_context (M : Model) (t : Token) (r : Nat) : Option (List Token) :=
  weightedChoice (ctxCands M t) r

theorem ctxCands_key {n : Nat} {t : Token} {kv : Key × Nat} {w : List Token} {c : Nat}
    (h : (if kv.1.1 = Direction.fwd ∧ kv.1.2.length = n ∧ kv.1.2.head? = some t ∧ 0 < kv.2
      then some (kv.1.2, kv.2)
      else none) = some (w, c)) :
    kv.1 = (Direction.fwd, w) ∧ kv.2 = c ∧ w.length = n ∧ w.head? = some t ∧ 0 < c := by
  by_cases hp : kv.1.1 = Direction.fwd ∧ kv.1.2.length = n ∧ kv.1.2.head? = some t ∧ 0 < kv.2
  · rw [if_pos hp] at h
    obtain ⟨hd, hlen, hhead, hpos⟩ := hp
    injection h with h2
    injection h2 with h3 h4
    refine ⟨Prod.ext hd h3, h4, h3 ▸ hlen, h3 ▸ hhead, h4 ▸ hpos⟩
  · rw [if_neg hp] at h
    exact Option.noConfusion h

theorem mem_ctxCands {M : Model} (hWF : M.WF) (t : Token) (w : List Token) (c : Nat) :
    (w, c) ∈ ctxCands M t
      ↔ w.length = M.n ∧ w.head? = some t ∧ ngram_count M w = c ∧ 0 < c := by
  constructor
  · intro h
    obtain ⟨⟨k1, c1⟩, hkv, hsome⟩ := List.mem_filterMap.1 h
    obtain ⟨hkey, hc, hlen, hhead, hpos⟩ := ctxCands_key hsome
    refine ⟨hlen, hhead, ?_, hpos⟩
    unfold ngram_count
    rw [← hkey, ← hc]
    exact storeGet_eq_of_mem hWF hkv
  · intro ⟨hlen, hhead, hcount, hpos⟩
    refine List.mem_filterMap.2 ⟨((Direction.fwd, w), c), mem_of_storeGet_pos hcount hpos, ?_⟩
    rw [if_pos ⟨rfl, hlen, hhead, hpos⟩]

/-- C4 counterexample: the claim's trailing-token reading fails on the
instance pinned by `TestModel.test_choose_random_context`: after training
"one two three", choose_random_context("one") returns the n-gram
["one", "two", "three"], whose trailing token is "three", not "one" — the
token appears as the leading token of the returned n-gram. -/
theorem C4_counterexample :
    choose_random_context (trainAll 3 ["one two three"]) "one" 0 = some ["one", "two", "three"]
  ∧ (["one", "two", "three"] : List Token).getLast? ≠ some "one" :=
  ⟨rfl, by decide⟩

/-- Claim C4 (amended): choose_random_context(token) samples among the
top-order n-grams whose leading token equals the given token (the entries
reached through the token-indexed reverse data, returned in forward token
order), weighted by count: it returns `none` exactly when no such n-gram
was trained; any returned n-gram has top-order length, leads with the
token, and has positive count; and as the draw sweeps the cumulative weight
range, each candidate n-gram is returned exactly count-many times. -/
theorem C4_choose_random_context_leading (n : Nat) (ts : List String) (t : Token) :
    ((∀ w, w.length = n → w.head? = some t → ngram_count (trainAll n ts) w = 0) →
        ∀ r, choose_random_context (trainAll n ts) t r = none)
  ∧ (∀ r w, choose_random_context (trainAll n ts) t r = some w →
        w.length = n ∧ w.head? = some t ∧ 0 < ngram_count (trainAll n ts) w)
  ∧ ((List.range (totalWeight (ctxCands (trainAll n ts) t))).filterMap
        (choose_random_context (trainAll n ts) t)
      = (ctxCands (trainAll n ts) t).flatMap fun p => List.replicate p.2 p.1)
  ∧ (∀ w c, (w, c) ∈ ctxCands (trainAll n ts) t
      ↔ w.length = n ∧ w.head? = some t ∧ ngram_count (trainAll n ts) w = c ∧ 0 < c) := by
  have hWF := WF_trainAll n ts
  have hn : (trainAll n ts).n = n := by
    have key : ∀ (us : List String) (M : Model), (us.foldl Model.train M).n = M.n := by
      intro us
      induction us with
      | nil => exact fun M => rfl
      | cons hd tl ih => exact fun M => (ih (M.train hd)).trans rfl
    exact key ts (Model.empty n)
  refine ⟨fun h r => ?_, fun r w hsome => ?_, ?_, fun w c => ?_⟩
  · have hempty : ctxCands (trainAll n ts) t = [] := by
      rcases hcand : ctxCands (trainAll n ts) t with _ | ⟨⟨w, c⟩, rest⟩
      · rfl
      · exfalso
        have hmem : (w, c) ∈ ctxCands (trainAll n ts) t := by
          rw [hcand]; exact List.mem_cons_self ..
        obtain ⟨hlen, hhead, hcount, hpos⟩ := (mem_ctxCands hWF t w c).1 hmem
        rw [h w (hn ▸ hlen) hhead] at hcount
        omega
    rw [choose_random_context, hempty]
    rfl
  · obtain ⟨c, hc, hpos⟩ := weightedChoice_eq_some hsome
    obtain ⟨hlen, hhead, hcount, hcpos⟩ := (mem_ctxCands hWF t w c).1 hc
    exact ⟨hn ▸ hlen, hhead, by omega⟩
  · exact range_filterMap_weightedChoice (ctxCands (trainAll n ts) t)
  · have hmem := mem_ctxCands (M := trainAll n ts) hWF t w c
    rw [hn] at hmem
    exact hmem

/-- C4 witness: applied on the model of `TestModel.test_choose_random_context`
(only "one two three" trained): the returned candidate has length 3, leads
with "one", and has positive count. -/
theorem C4_choose_random_context_leading_witness :
    (["one", "two", "three"] : List Token).length = 3
  ∧ (["one", "two", "three"] : List Token).head? = some "one"
  ∧ 0 < ngram_count (trainAll 3 ["one two three"]) ["one", "two", "three"] :=
  (C4_choose_random_context_leading 3 ["one two three"] "one").2.1 0
    ["one", "two", "three"] (by decide)

/-! ### Breadth-first sequence search -/

/-- The last `k` elements of a list. -/
def lastN {α : Type} (k : Nat) (l : List α) : List α := l.drop (l.length - k)

/-- Modelled from the spec: the distinct tokens observed to follow a context
in the forward index (§4.6), in scan order. -/
def continuations (M : Model) (ctx : List Token) : List Token :=
  (candWords M ctx).map Prod.fst

/-- One breadth-first expansion (§4.6): extend an in-progress sequence by
every observed continuation of its last order-1 tokens. -/
def bfsExpand (M : Model) (s : List Token) : List (List Token) :=
  (continuations M (lastN (M.n - 1) s)).map fun w => s ++ [w]

/-- Modelled from the spec: the level-synchronous work loop of `search_bfs`
(§4.6, Design Notes §9: an explicit frontier per depth level): sequences
whose most recently appended token is the end token are emitted; the others
branch into one successor per distinct observed continuation. The lazy
sequence is modelled with explicit fuel bounding the explored depth. -/
def bfsLevels (M : Model) (endTok : Token) : Nat → List (List Token) → List (List Token)
  | 0, _ => []
  | fuel + 1, frontier =>
      frontier.filter (fun s => decide (s.getLast? = some endTok))
        ++ bfsLevels M endTok fuel
            ((frontier.filter fun s => decide (¬ s.getLast? = some endTok)).flatMap
              (bfsExpand M))

/-- Modelled from the spec: `Model.search_bfs` (§4.6), explored to the given
depth. -/
def search_bfs (M : Model) (seed : List Token) (endTok : Token) (fuel : Nat) :
    List (List Token) :=
  bfsLevels M endTok fuel [seed]

/-- A sequence `q` is reachable from `s` in exactly `d` branching steps:
each step appends one observed continuation of the last order-1 tokens to a
sequence that has not yet reached the end token. -/
inductive ReachN (M : Model) (endTok : Token) : List Token → List Token → Nat → Prop
  | refl (s : List Token) : ReachN M endTok s s 0
  | step {s t : List Token} {w : Token} {d : Nat} :
      ReachN M endTok s t d →
      t.getLast? ≠ some endTok →
      w ∈ continuations M (lastN (M.n - 1) t) →
      ReachN M endTok s (t ++ [w]) (d + 1)

theorem reachN_length {M : Model} {endTok : Token} {s q : List Token} {d : Nat}
    (h : ReachN M endTok s q d) : q.length = s.length + d := by
  induction h with
  | refl => rfl
  | step _ _ _ ih => simp [ih]; omega

theorem reachN_zero {M : Model} {endTok : Token} {s q : List Token}
    (h : ReachN M endTok s q 0) : q = s := by
  cases h
  rfl

theorem reachN_prepend {M : Model} {endTok : Token} {s2 q : List Token} {d : Nat}
    (h : ReachN M endTok s2 q d) :
    ∀ {s : List Token} {w : Token}, s2 = s ++ [w] →
      s.getLast? ≠ some endTok → w ∈ continuations M (lastN (M.n - 1) s) →
      ReachN M endTok s q (d + 1) := by
  induction h with
  | refl =>
      intro s w hs halive hw
      subst hs
      exact ReachN.step (ReachN.refl s) halive hw
  | step h2 halive2 hw2 ih =>
      intro s w hs halive hw
      exact ReachN.step (ih hs halive hw) halive2 hw2

theorem reachN_succ_iff {M : Model} {endTok : Token} {s q : List Token} {d : Nat} :
    ReachN M endTok s q (d + 1)
      ↔ ∃ w, s.getLast? ≠ some endTok ∧ w ∈ continuations M (lastN (M.n - 1) s)
          ∧ ReachN M endTok (s ++ [w]) q d := by
  constructor
  · intro h
    induction d generalizing q with
    | zero =>
        cases h with
        | step h2 halive hw =>
            have h3 := reachN_zero h2
            subst h3
            exact ⟨_, halive, hw, ReachN.refl _⟩
    | succ d ih =>
        cases h with
        | step h2 halive hw =>
            obtain ⟨w2, halive2, hw2, h3⟩ := ih h2
            exact ⟨w2, halive2, hw2, ReachN.step h3 halive hw⟩
  · rintro ⟨w, halive, hw, h⟩
    exact reachN_prepend h rfl halive hw

theorem mem_bfsExpand {M : Model} {s q : List Token} :
    q ∈ bfsExpand M s ↔ ∃ w ∈ continuations M (lastN (M.n - 1) s), q = s ++ [w] := by
  unfold bfsExpand
  rw [List.mem_map]
  constructor
  · rintro ⟨w, hw, rfl⟩
    exact ⟨w, hw, rfl⟩
  · rintro ⟨w, hw, rfl⟩
    exact ⟨w, hw, rfl⟩

theorem mem_bfsLevels {M : Model} {endTok : Token} (fuel : Nat) (F : List (List Token))
    (q : List Token) :
    q ∈ bfsLevels M endTok fuel F
      ↔ ∃ d, d < fuel ∧ ∃ s ∈ F, ReachN M endTok s q d ∧ q.getLast? = some endTok := by
  induction fuel generalizing F with
  | zero => simp [bfsLevels]
  | succ fuel ih =>
      rw [bfsLevels, List.mem_append, ih, List.mem_filter]
      constructor
      · rintro (⟨hqF, hdone⟩ | ⟨d, hd, s2, hs2, hreach, hdone⟩)
        · exact ⟨0, by omega, q, hqF, ReachN.refl q, by simpa using hdone⟩
        · obtain ⟨s, hsF, hs2exp⟩ := List.mem_flatMap.1 hs2
          rw [List.mem_filter] at hsF
          obtain ⟨w, hw, rfl⟩ := mem_bfsExpand.1 hs2exp
          have halive : s.getLast? ≠ some endTok := by
            have h2 := hsF.2
            simp only [decide_eq_true_eq] at h2
            exact h2
          exact ⟨d + 1, by omega, s, hsF.1,
            reachN_prepend hreach rfl halive hw, hdone⟩
      · rintro ⟨d, hd, s, hsF, hreach, hdone⟩
        cases d with
        | zero =>
            have h2 := reachN_zero hreach
            subst h2
            exact Or.inl ⟨hsF, by simpa using hdone⟩
        | succ d =>
            right
            obtain ⟨w, halive, hw, hreach2⟩ := reachN_succ_iff.1 hreach
            refine ⟨d, by omega, s ++ [w], ?_, hreach2, hdone⟩
            refine List.mem_flatMap.2 ⟨s, ?_, mem_bfsExpand.2 ⟨w, hw, rfl⟩⟩
            rw [List.mem_filter]
            exact ⟨hsF, by simpa using halive⟩

theorem continuations_nodup (M : Model) (hWF : M.WF) (ctx : List Token) :
    (continuations M ctx).Nodup := by
  unfold continuations candWords
  rw [List.map_filterMap]
  refine nodup_filterMap_of_key _ (fun w => (Direction.fwd, ctx ++ [w])) ?_ M.store hWF
  intro kv b hg
  rw [Option.map_eq_some'] at hg
  obtain ⟨⟨w, c⟩, hsome, hfst⟩ := hg
  have h2 : w = b := hfst
  subst h2
  exact (candWords_key hsome).1

theorem bfsExpand_nodup (M : Model) (hWF : M.WF) (s : List Token) :
    (bfsExpand M s).Nodup := by
  unfold bfsExpand
  refine (continuations_nodup M hWF _).map ?_
  intro w1 w2 h
  simpa using List.append_cancel_left h

theorem nodup_bfsLevels {M : Model} (hWF : M.WF) (endTok : Token) (fuel : Nat) :
    ∀ (F : List (List Token)) (L : Nat), (∀ s ∈ F, s.length = L) → F.Nodup →
      (bfsLevels M endTok fuel F).Nodup := by
  induction fuel with
  | zero =>
      intro F L hlen hnd
      simp [bfsLevels]
  | succ fuel ih =>
      intro F L hlen hnd
      rw [bfsLevels]
      have hexp : ∀ s2 ∈ (F.filter fun s => decide (¬ s.getLast? = some endTok)).flatMap
          (bfsExpand M), s2.length = L + 1 := by
        intro s2 hs2
        obtain ⟨s, hsF, hs2exp⟩ := List.mem_flatMap.1 hs2
        obtain ⟨w, _, rfl⟩ := mem_bfsExpand.1 hs2exp
        rw [List.length_append, hlen s (List.mem_filter.1 hsF).1]
        rfl
      refine List.Nodup.append (hnd.filter _) (ih _ (L + 1) hexp ?_) ?_
      · refine List.nodup_flatMap.2 ⟨fun s _ => bfsExpand_nodup M hWF s, ?_⟩
        refine (hnd.filter _).pairwise_of_forall_ne fun s1 hs1 s2 hs2 hne => ?_
        intro q hq1 hq2
        obtain ⟨w1, _, rfl⟩ := mem_bfsExpand.1 hq1
        obtain ⟨w2, _, heq⟩ := mem_bfsExpand.1 hq2
        refine hne ?_
        have h2 := congrArg List.dropLast heq
        rwa [List.dropLast_concat, List.dropLast_concat] at h2
      · intro q hq1 hq2
        have hlq : q.length = L := hlen q (List.mem_filter.1 hq1).1
        obtain ⟨d, _, s2, hs2, hreach, _⟩ := (mem_bfsLevels fuel _ q).1 hq2
        have h2 : q.length = s2.length + d := reachN_length hreach
        have h3 : s2.length = L + 1 := hexp s2 hs2
        omega

/-- Claim C6: within the explored depth, `search_bfs` yields exactly the set
of distinct complete sequences reachable by repeatedly extending the last
order-1 tokens with every observed continuation until the end token is
appended: membership coincides with reachability, and no sequence is
produced twice. -/
theorem C6_search_bfs_exact (n : Nat) (ts : List String) (seed : List Token)
    (endTok : Token) (fuel : Nat) (_hseed : n - 1 ≤ seed.length) :
    (∀ q, q ∈ search_bfs (trainAll n ts) seed endTok fuel
        ↔ ∃ d, d < fuel ∧ ReachN (trainAll n ts) endTok seed q d
            ∧ q.getLast? = some endTok)
  ∧ (search_bfs (trainAll n ts) seed endTok fuel).Nodup := by
  constructor
  · intro q
    rw [search_bfs, mem_bfsLevels]
    constructor
    · rintro ⟨d, hd, s, hs, hreach, hdone⟩
      rw [List.mem_singleton] at hs
      subst hs
      exact ⟨d, hd, hreach, hdone⟩
    · rintro ⟨d, hd, hreach, hdone⟩
      exact ⟨d, hd, seed, List.mem_singleton.2 rfl, hreach, hdone⟩
  · exact nodup_bfsLevels (WF_trainAll n ts) endTok fuel [seed] seed.length
      (by simp) (by simp)

/-- C6 witness: on the three trained sentences of `TestModel.test_search_bfs`
the search to depth 9 emits no duplicates, and evaluates to exactly the four
expected sentences — the three trained ones plus the sentence synthesized by
merging transitions of the second and third. -/
theorem C6_search_bfs_exact_witness :
    3 - 1 ≤ (["<S>", "this", "is"] : List Token).length
  ∧ (search_bfs (trainAll 3 ["<S> this is a test sentence </S>",
        "<S> this is a test sentence that continues </S>",
        "<S> this is another test sentence </S>"]) ["<S>", "this", "is"] "</S>" 9).Nodup
  ∧ search_bfs (trainAll 3 ["<S> this is a test sentence </S>",
        "<S> this is a test sentence that continues </S>",
        "<S> this is another test sentence </S>"]) ["<S>", "this", "is"] "</S>" 9
      = [["<S>", "this", "is", "a", "test", "sentence", "</S>"],
         ["<S>", "this", "is", "another", "test", "sentence", "</S>"],
         ["<S>", "this", "is", "a", "test", "sentence", "that", "continues", "</S>"],
         ["<S>", "this", "is", "another", "test", "sentence", "that", "continues", "</S>"]] :=
  ⟨by decide,
    (C6_search_bfs_exact 3 ["<S> this is a test sentence </S>",
        "<S> this is a test sentence that continues </S>",
        "<S> this is another test sentence </S>"] ["<S>", "this", "is"] "</S>" 9
      (by decide)).2,
    by decide⟩
